import Mathlib

/-
Verification of the command-dispatch engine of the go-cli repository.

The embedding below follows the dispatcher in cli.go (the snapshot of
Main that takes an injected reader, writer and logger, lines 280-348),
together with System.Fatal and friends from system.go.  Go interfaces
with capability probing become an inductive Command record whose
optional fields mirror the HasSubcommands, HasFlags and Action
capability probes; the flag.FlagSet built for the leaf is abstracted as
the fallible parse function the leaf command installs into it; the
action body is an opaque function from the resolved origin and the
positional arguments to an outcome, where an outcome is either an
explicit returned status or a fatal log call (log.Fatal prints the
message to the logger and terminates the process with status 1).
Indexing that can panic in Go (tail[0] on an empty vector, head[0] on an
empty token) is made explicit with Option.
-/

namespace GoCli

/-- Outcome of invoking the body of an Action command: it either returns
an explicit integer status, or it calls System.Fatal and never returns
(the logger prints the message and the process exits with status 1). -/
inductive Outcome where
  | ret (status : Int)
  | fatal (msg : String)

/-- A command node.  The three optional fields mirror the three optional
capabilities probed by Main: HasSubcommands (a nil map from Subcommands
is indistinguishable from the missing capability in the dispatcher, so
both are `none`), HasFlags (abstracted as the parse function of the
flag.FlagSet the command populates), and Action (the command body,
receiving the resolved name and the positional arguments). -/
inductive Command where
  | mk :
      Option (List (String × Command)) →
      Option (List String → Except String Unit) →
      Option (String → List String → Outcome) →
      Command

/-- The subcommand table of a command, when the HasSubcommands probe
succeeds and returns a non-nil map. -/
def Command.subcommands : Command → Option (List (String × Command))
  | .mk s _ _ => s

/-- The flag-parse function of a command, when the HasFlags probe
succeeds. -/
def Command.flags : Command → Option (List String → Except String Unit)
  | .mk _ f _ => f

/-- The action body of a command, when the Action probe succeeds. -/
def Command.action : Command → Option (String → List String → Outcome)
  | .mk _ _ a => a

/-- Lookup of `subcommands[head]` in the CLI map, modelled as an
association list with first-match lookup (keys are unique in a Go map). -/
def lookupCmd : List (String × Command) → String → Option Command
  | [], _ => none
  | (k, v) :: rest, key => if k = key then some v else lookupCmd rest key

/-- The mutable scan state of Main: the current resolved command `cmd`,
the resolved path `name`, the collected flag tokens `flags` and the
collected positional tokens `args`. -/
structure ScanState where
  cmd : Command
  name : String
  flags : List String
  args : List String

/-- Whether `head[0] == '-'` holds for a non-empty Go string; false for
the empty string (which in Go panics before the comparison). -/
def startsWithDash (s : String) : Bool :=
  match s.data with
  | [] => false
  | c :: _ => c == '-'

/-- One iteration of the scan loop on a non-empty token `head`:
flag tokens are appended to `flags`; at a node without a subcommand
table the token goes to `args`; at a node with a table, a matching
child consumes the token as a routing step (extending the space-joined
`name`), and a non-matching token goes to `args` unless it is
string-equal to `argv0` (`os.Args[0]`), in which case it is dropped. -/
def classifyCore (argv0 : String) (st : ScanState) (head : String) : ScanState :=
  if startsWithDash head then
    { st with flags := st.flags ++ [head] }
  else
    match st.cmd.subcommands with
    | none => { st with args := st.args ++ [head] }
    | some m =>
      match lookupCmd m head with
      | some c =>
        { st with
            cmd := c,
            name := if st.name = "" then head else st.name ++ " " ++ head }
      | none =>
        if head ≠ argv0 then { st with args := st.args ++ [head] } else st

/-- One iteration of the scan loop; `none` models the Go panic on
`head[0]` when the token is the empty string. -/
def classify (argv0 : String) (st : ScanState) (head : String) : Option ScanState :=
  if head = "" then none
  else some (classifyCore argv0 st head)

/-- The scan loop of Main: process `tail[0]`, stop when `len(tail) == 1`,
otherwise continue with `tail[1:]`.  `none` on the empty list models the
out-of-range `tail[0]`. -/
def scanLoop (argv0 : String) (st : ScanState) : List String → Option ScanState
  | [] => none
  | [head] => classify argv0 st head
  | head :: tail => (classify argv0 st head).bind fun st1 => scanLoop argv0 st1 tail

/-- The whole scan of Main over the argument vector: the loop starts
with `tail = os.Args`, so the token at index 0 is itself processed, and
`argv0` is the index-0 token. -/
def scanArgv (root : Command) (argv : List String) : Option ScanState :=
  match argv with
  | [] => none
  | a0 :: _ => scanLoop a0 { cmd := root, name := "", flags := [], args := [] } argv

/-- Fold form of the scan loop used in proofs: process every token of
the list in order.  Agrees with `scanLoop` on non-empty lists. -/
def processAll (argv0 : String) (st : ScanState) : List String → Option ScanState
  | [] => some st
  | head :: tail => (classify argv0 st head).bind fun st1 => processAll argv0 st1 tail

/-- Where an emission of the dispatcher goes: directly to the hardcoded
process stream os.Stderr, or through the injected logger. -/
inductive Sink where
  | stderr
  | logger
deriving DecidableEq

/-- Observable result of one invocation of Main: the returned status,
the diagnostics emitted with their sink, the token list handed to the
flag parser (when the leaf declares flags), the origin value bound into
the execution context (when an action is invoked), and whether the
action body ran. -/
structure MainResult where
  status : Int
  emissions : List (Sink × String)
  flagsGiven : Option (List String)
  origin : Option String
  invoked : Bool
deriving DecidableEq

/-- The diagnostic Main writes on a flag-parse failure, via
`fmt.Fprintf(os.Stderr, "Failed to parse command-line arguments:\n%s\n", err)`. -/
def parseFailMsg (e : String) : String :=
  "Failed to parse command-line arguments:\n" ++ e ++ "\n"

/-- The Action step of Main: if the resolved leaf has the Action
capability, build the context carrying `origin := name` and invoke the
body with the positional arguments; a returned status is passed through
(`if status != 0 return status; return 0`), a fatal log call prints the
message through the injected logger and exits the process with status 1. -/
def runAction (st : ScanState) (flagsGiven : Option (List String)) : MainResult :=
  match st.cmd.action with
  | none =>
    { status := 0, emissions := [], flagsGiven := flagsGiven,
      origin := none, invoked := false }
  | some act =>
    match act st.name st.args with
    | .ret s =>
      { status := if s ≠ 0 then s else 0, emissions := [],
        flagsGiven := flagsGiven, origin := some st.name, invoked := true }
    | .fatal msg =>
      { status := 1, emissions := [(Sink.logger, msg)],
        flagsGiven := flagsGiven, origin := some st.name, invoked := true }

/-- Main (cli.go, the snapshot with injected in/out/logger): scan the
argument vector; if the resolved leaf declares flags, parse the collected
flag tokens, and on failure write the diagnostic directly to os.Stderr
and return 1; otherwise run the action step.  `none` models the Go
panics of the scan. -/
def Main (root : Command) (argv : List String) : Option MainResult :=
  (scanArgv root argv).bind fun st =>
    match st.cmd.flags with
    | some parse =>
      match parse st.flags with
      | .error e =>
        some { status := 1, emissions := [(Sink.stderr, parseFailMsg e)],
               flagsGiven := some st.flags, origin := none, invoked := false }
      | .ok _ => some (runAction st (some st.flags))
    | none => some (runAction st none)

/-- Follow a chain of subcommand names from a starting command through
the subcommand tables. -/
def resolveChain : Command → List String → Option Command
  | c, [] => some c
  | c, n :: ns =>
    match c.subcommands with
    | none => none
    | some m =>
      match lookupCmd m n with
      | none => none
      | some c1 => resolveChain c1 ns

/-- `strings.Join(l, " ")`: the list joined by single spaces. -/
def joinSpace : List String → String
  | [] => ""
  | [n] => n
  | n :: ns => n ++ " " ++ joinSpace ns

/-- The accumulator form in which Main builds the resolved path `name`:
the first routed token is taken verbatim, later ones are appended after
a single space. -/
def joinAcc (acc : String) : List String → String
  | [] => acc
  | n :: ns => joinAcc (if acc = "" then n else acc ++ " " ++ n) ns

/-! Helper lemmas about the scan. -/

/-- The scan loop on the empty token vector models the out-of-range
`tail[0]`. -/
theorem scanLoop_nil (argv0 : String) (st : ScanState) :
    scanLoop argv0 st [] = none := rfl

/-- On a non-empty token vector the scan loop is the fold that
classifies every token in order. -/
theorem scanLoop_eq_processAll (argv0 : String) (l : List String) :
    ∀ st : ScanState, l ≠ [] → scanLoop argv0 st l = processAll argv0 st l := by
  induction l with
  | nil => intro st h; exact absurd rfl h
  | cons head tail ih =>
    intro st _
    cases tail with
    | nil =>
      show classify argv0 st head = _
      cases h : classify argv0 st head <;> simp [processAll, h]
    | cons b bs =>
      show (classify argv0 st head).bind _ = (classify argv0 st head).bind _
      cases h : classify argv0 st head with
      | none => rfl
      | some st1 => simpa using ih st1 (by simp)

/-- The whole scan, in fold form. -/
theorem scanArgv_eq_processAll (root : Command) (a0 : String) (rest : List String) :
    scanArgv root (a0 :: rest) =
      processAll a0 { cmd := root, name := "", flags := [], args := [] } (a0 :: rest) := by
  show scanLoop a0 _ (a0 :: rest) = _
  exact scanLoop_eq_processAll a0 (a0 :: rest) _ (by simp)

/-- Classifying the empty token is the panic on `head[0]`. -/
theorem classify_empty (argv0 : String) (st : ScanState) :
    classify argv0 st "" = none := rfl

/-- Classifying a non-empty token never panics. -/
theorem classify_of_ne (argv0 : String) (st : ScanState) (tok : String) (h : tok ≠ "") :
    classify argv0 st tok = some (classifyCore argv0 st tok) := by
  simp [classify, h]

/-- A token classified without panic is non-empty. -/
theorem classify_some_ne (argv0 : String) (st st1 : ScanState) (tok : String)
    (h : classify argv0 st tok = some st1) : tok ≠ "" := by
  intro he
  rw [he, classify_empty] at h
  exact Option.noConfusion h

/-- Exhaustive case analysis of one scan iteration: a token is a flag
token, a positional at a node without a subcommand table, a routing
step, a positional at a node with a table, or silently dropped. -/
theorem classifyCore_cases (argv0 : String) (st : ScanState) (tok : String) :
    (startsWithDash tok = true ∧
      classifyCore argv0 st tok = { st with flags := st.flags ++ [tok] }) ∨
    (startsWithDash tok = false ∧ st.cmd.subcommands = none ∧
      classifyCore argv0 st tok = { st with args := st.args ++ [tok] }) ∨
    (startsWithDash tok = false ∧ (∃ m c, st.cmd.subcommands = some m ∧
      lookupCmd m tok = some c ∧
      classifyCore argv0 st tok =
        { st with cmd := c, name := if st.name = "" then tok else st.name ++ " " ++ tok })) ∨
    (startsWithDash tok = false ∧ (∃ m, st.cmd.subcommands = some m ∧
      lookupCmd m tok = none ∧ tok ≠ argv0 ∧
      classifyCore argv0 st tok = { st with args := st.args ++ [tok] })) ∨
    (startsWithDash tok = false ∧ (∃ m, st.cmd.subcommands = some m ∧
      lookupCmd m tok = none ∧ tok = argv0 ∧
      classifyCore argv0 st tok = st)) := by
  obtain ⟨cmd, nm, fl, ar⟩ := st
  obtain ⟨subs, fpar, act⟩ := cmd
  by_cases hd : startsWithDash tok
  · exact Or.inl ⟨hd, by simp [classifyCore, hd]⟩
  · simp only [Bool.not_eq_true] at hd
    rcases subs with _ | m
    · refine Or.inr (Or.inl ⟨hd, rfl, ?_⟩)
      simp [classifyCore, hd, Command.subcommands]
    · rcases hl : lookupCmd m tok with _ | c
      · by_cases ha : tok = argv0
        · subst ha
          refine Or.inr (Or.inr (Or.inr (Or.inr ⟨hd, m, rfl, hl, rfl, ?_⟩)))
          simp [classifyCore, hd, Command.subcommands, hl]
        · refine Or.inr (Or.inr (Or.inr (Or.inl ⟨hd, m, rfl, hl, ha, ?_⟩)))
          simp [classifyCore, hd, Command.subcommands, hl, ha]
      · refine Or.inr (Or.inr (Or.inl ⟨hd, m, c, rfl, hl, ?_⟩))
        simp [classifyCore, hd, Command.subcommands, hl]

/-- One iteration appends the token to the flag bucket exactly when it
begins with the flag-prefix character. -/
theorem classifyCore_flags (argv0 : String) (st : ScanState) (tok : String) :
    (classifyCore argv0 st tok).flags =
      st.flags ++ (if startsWithDash tok then [tok] else []) := by
  rcases classifyCore_cases argv0 st tok with
    ⟨hd, he⟩ | ⟨hd, _, he⟩ | ⟨hd, _, _, _, _, he⟩ | ⟨hd, _, _, _, _, he⟩ | ⟨hd, _, _, _, _, he⟩ <;>
    rw [he] <;> simp [hd]

/-- One iteration adds at most the scanned token to the positional
bucket. -/
theorem classifyCore_args_mem (argv0 : String) (st : ScanState) (tok x : String)
    (hx : x ∈ (classifyCore argv0 st tok).args) : x ∈ st.args ∨ x = tok := by
  rcases classifyCore_cases argv0 st tok with
    ⟨_, he⟩ | ⟨_, _, he⟩ | ⟨_, _, _, _, _, he⟩ | ⟨_, _, _, _, _, he⟩ | ⟨_, _, _, _, _, he⟩ <;>
    rw [he] at hx <;> (try simp at hx) <;> tauto

/-- At a node without a subcommand table an iteration never changes the
resolved command or the resolved path. -/
theorem classifyCore_leaf (argv0 : String) (st : ScanState) (tok : String)
    (hs : st.cmd.subcommands = none) :
    (classifyCore argv0 st tok).cmd = st.cmd ∧ (classifyCore argv0 st tok).name = st.name := by
  rcases classifyCore_cases argv0 st tok with
    ⟨_, he⟩ | ⟨_, _, he⟩ | ⟨_, ⟨m, c, hm, _, he⟩⟩ | ⟨_, ⟨m, hm, _, _, he⟩⟩ | ⟨_, ⟨m, hm, _, _, he⟩⟩ <;>
    first
      | (rw [he]; exact ⟨rfl, rfl⟩)
      | (rw [hs] at hm; exact Option.noConfusion hm)

/-- Scanning the index-0 token at a node with a subcommand table never
adds to the positional bucket: it is a flag, a routing step, or dropped. -/
theorem classifyCore_index0 (argv0 : String) (st : ScanState)
    (m : List (String × Command)) (hs : st.cmd.subcommands = some m) :
    (classifyCore argv0 st argv0).args = st.args := by
  rcases classifyCore_cases argv0 st argv0 with
    ⟨_, he⟩ | ⟨_, hn, he⟩ | ⟨_, _, _, _, _, he⟩ | ⟨_, ⟨_, _, _, ha, he⟩⟩ | ⟨_, _, _, _, _, he⟩
  · rw [he]
  · rw [hs] at hn; exact Option.noConfusion hn
  · rw [he]
  · exact absurd rfl ha
  · rw [he]

/-- The fold over an appended token list is the composition of the
folds. -/
theorem processAll_append (argv0 : String) (xs ys : List String) :
    ∀ st : ScanState, processAll argv0 st (xs ++ ys) =
      (processAll argv0 st xs).bind fun st1 => processAll argv0 st1 ys := by
  induction xs with
  | nil => intro st; simp [processAll]
  | cons x xs ih =>
    intro st
    simp only [List.cons_append, processAll]
    cases h : classify argv0 st x with
    | none => rfl
    | some st1 => simp [ih st1]

/-- Every scanned token is non-empty when the fold does not panic. -/
theorem processAll_some_ne (argv0 : String) (ts : List String) :
    ∀ st st' : ScanState, processAll argv0 st ts = some st' → ∀ t ∈ ts, t ≠ "" := by
  induction ts with
  | nil => intro st st' _ t ht; cases ht
  | cons t0 ts ih =>
    intro st st' h t ht
    simp only [processAll] at h
    cases hc : classify argv0 st t0 with
    | none => rw [hc] at h; exact Option.noConfusion h
    | some st1 =>
      rw [hc] at h
      rcases List.mem_cons.mp ht with h1 | h1
      · subst h1; exact classify_some_ne argv0 st st1 t hc
      · exact ih st1 st' h t h1

/-- The fold does not panic on a list of non-empty tokens. -/
theorem processAll_total (argv0 : String) (ts : List String) :
    ∀ st : ScanState, (∀ t ∈ ts, t ≠ "") →
      ∃ st' : ScanState, processAll argv0 st ts = some st' := by
  induction ts with
  | nil => intro st _; exact ⟨st, rfl⟩
  | cons t0 ts ih =>
    intro st h
    have h0 : t0 ≠ "" := h t0 (by simp)
    obtain ⟨st', h'⟩ := ih (classifyCore argv0 st t0) (fun t ht => h t (by simp [ht]))
    exact ⟨st', by simp [processAll, classify_of_ne argv0 st t0 h0, h']⟩

/-- The flag bucket collected by the scan is the initial bucket followed
by the order-preserving subsequence of the scanned tokens that begin
with the flag-prefix character. -/
theorem processAll_flags (argv0 : String) (ts : List String) :
    ∀ st st' : ScanState, processAll argv0 st ts = some st' →
      st'.flags = st.flags ++ ts.filter (fun t => startsWithDash t) := by
  induction ts with
  | nil => intro st st' h; cases h; simp
  | cons t0 ts ih =>
    intro st st' h
    have h0 : t0 ≠ "" :=
      processAll_some_ne argv0 (t0 :: ts) st st' h t0 (by simp)
    rw [show processAll argv0 st (t0 :: ts) =
          (classify argv0 st t0).bind fun st1 => processAll argv0 st1 ts from rfl,
        classify_of_ne argv0 st t0 h0, Option.some_bind] at h
    rw [ih _ _ h, classifyCore_flags, List.filter_cons]
    by_cases hd : startsWithDash t0 <;> simp [hd]

/-- Every element of the positional bucket after the fold was already
there or is one of the scanned tokens. -/
theorem processAll_args_mem (argv0 : String) (ts : List String) :
    ∀ st st' : ScanState, processAll argv0 st ts = some st' →
      ∀ x ∈ st'.args, x ∈ st.args ∨ x ∈ ts := by
  induction ts with
  | nil => intro st st' h x hx; cases h; exact Or.inl hx
  | cons t0 ts ih =>
    intro st st' h x hx
    have h0 : t0 ≠ "" :=
      processAll_some_ne argv0 (t0 :: ts) st st' h t0 (by simp)
    rw [show processAll argv0 st (t0 :: ts) =
          (classify argv0 st t0).bind fun st1 => processAll argv0 st1 ts from rfl,
        classify_of_ne argv0 st t0 h0, Option.some_bind] at h
    rcases ih _ _ h x hx with h1 | h1
    · rcases classifyCore_args_mem argv0 st t0 x h1 with h2 | h2
      · exact Or.inl h2
      · exact Or.inr (by simp [h2])
    · exact Or.inr (by simp [h1])

/-- Once the scan sits at a node without a subcommand table it stays
there: later tokens change neither the resolved command nor the
resolved path. -/
theorem processAll_leaf (argv0 : String) (ts : List String) :
    ∀ st st' : ScanState, st.cmd.subcommands = none →
      processAll argv0 st ts = some st' →
      st'.cmd = st.cmd ∧ st'.name = st.name := by
  induction ts with
  | nil => intro st st' _ h; cases h; exact ⟨rfl, rfl⟩
  | cons t0 ts ih =>
    intro st st' hs h
    have h0 : t0 ≠ "" :=
      processAll_some_ne argv0 (t0 :: ts) st st' h t0 (by simp)
    rw [show processAll argv0 st (t0 :: ts) =
          (classify argv0 st t0).bind fun st1 => processAll argv0 st1 ts from rfl,
        classify_of_ne argv0 st t0 h0, Option.some_bind] at h
    obtain ⟨hc, hn⟩ := classifyCore_leaf argv0 st t0 hs
    obtain ⟨hc', hn'⟩ := ih _ _ (by rw [hc]; exact hs) h
    exact ⟨hc'.trans hc, hn'.trans hn⟩

/-- Scanning a chain of valid subcommand names routes through the tree:
the resolved command follows the chain and the resolved path is the
accumulated space-join, while the flag and positional buckets are
untouched. -/
theorem processAll_chain (argv0 : String) (chain : List String) :
    ∀ (st : ScanState) (tgt : Command),
      (∀ n ∈ chain, n ≠ "" ∧ startsWithDash n = false) →
      resolveChain st.cmd chain = some tgt →
      processAll argv0 st chain =
        some { cmd := tgt, name := joinAcc st.name chain,
               flags := st.flags, args := st.args } := by
  induction chain with
  | nil =>
    intro st tgt _ hres
    have : st.cmd = tgt := by
      simpa [resolveChain] using hres
    subst this
    rfl
  | cons n ns ih =>
    intro st tgt hwf hres
    obtain ⟨hn, hd⟩ := hwf n (by simp)
    rcases hs : st.cmd.subcommands with _ | m
    · rw [resolveChain, hs] at hres; exact Option.noConfusion hres
    · simp only [resolveChain, hs] at hres
      rcases hl : lookupCmd m n with _ | c
      · simp [hl] at hres
      · simp only [hl] at hres
        have hcore : classifyCore argv0 st n =
            { st with cmd := c,
                      name := if st.name = "" then n else st.name ++ " " ++ n } := by
          simp [classifyCore, hd, hs, hl]
        rw [show processAll argv0 st (n :: ns) =
              (classify argv0 st n).bind fun st1 => processAll argv0 st1 ns from rfl,
            classify_of_ne argv0 st n hn, Option.some_bind, hcore]
        rw [ih _ tgt (fun t ht => hwf t (by simp [ht])) (by simpa using hres)]
        rfl

/-! Helper lemmas about the space-join. -/

/-- A string extended by a space and another string is a different
string. -/
theorem append_space_ne (a b : String) : a ++ " " ++ b ≠ a := by
  intro h
  have h2 := congrArg String.length h
  have h3 : (" " : String).length = 1 := by decide
  simp only [String.length_append, h3] at h2
  omega

/-- A string extended by a space and another string is non-empty. -/
theorem append_space_ne_empty (a b : String) : a ++ " " ++ b ≠ "" := by
  intro h
  have h2 := congrArg String.length h
  have h3 : (" " : String).length = 1 := by decide
  have h4 : ("" : String).length = 0 := by decide
  simp only [String.length_append, h3, h4] at h2
  omega

/-- Unfolding of the space-join on a list of at least two names. -/
theorem joinSpace_cons (n : String) (ns : List String) (h : ns ≠ []) :
    joinSpace (n :: ns) = n ++ " " ++ joinSpace ns := by
  cases ns with
  | nil => exact absurd rfl h
  | cons b bs => rfl

/-- The accumulated join starting from a non-empty prefix. -/
theorem joinAcc_of_ne (ns : List String) :
    ∀ acc : String, acc ≠ "" →
      joinAcc acc ns = if ns = [] then acc else acc ++ " " ++ joinSpace ns := by
  induction ns with
  | nil => intro acc _; simp [joinAcc]
  | cons n ns ih =>
    intro acc h
    rw [if_neg (by simp : (n :: ns : List String) ≠ [])]
    show joinAcc (if acc = "" then n else acc ++ " " ++ n) ns = _
    rw [if_neg h, ih (acc ++ " " ++ n) (append_space_ne_empty acc n)]
    by_cases hns : ns = []
    · subst hns; simp [joinSpace]
    · rw [if_neg hns, joinSpace_cons n ns hns]
      simp [String.append_assoc]

/-- The accumulated join starting from the empty path is the space-join,
provided the names are non-empty. -/
theorem joinAcc_empty (chain : List String) (h : ∀ n ∈ chain, n ≠ "") :
    joinAcc "" chain = joinSpace chain := by
  cases chain with
  | nil => rfl
  | cons n ns =>
    have hn : n ≠ "" := h n (by simp)
    show joinAcc (if ("" : String) = "" then n else "" ++ " " ++ n) ns = _
    rw [if_pos rfl, joinAcc_of_ne ns n hn]
    by_cases hns : ns = []
    · subst hns; simp [joinSpace]
    · rw [if_neg hns, joinSpace_cons n ns hns]

/-! Helper lemmas about the action step and Main. -/

/-- The action step always records the token list that was handed to the
flag parser. -/
theorem runAction_flagsGiven (st : ScanState) (fg : Option (List String)) :
    (runAction st fg).flagsGiven = fg := by
  unfold runAction
  rcases st.cmd.action with _ | act
  · rfl
  · rcases ho : act st.name st.args with s | msg <;> simp [ho]

/-- The action step on a command without the Action capability. -/
theorem runAction_none (st : ScanState) (fg : Option (List String))
    (hact : st.cmd.action = none) :
    runAction st fg =
      { status := 0, emissions := [], flagsGiven := fg, origin := none, invoked := false } := by
  unfold runAction
  rw [hact]

/-- The action step on an action that returns an explicit status. -/
theorem runAction_ret (st : ScanState) (fg : Option (List String))
    (act : String → List String → Outcome) (s : Int)
    (hact : st.cmd.action = some act) (hret : act st.name st.args = Outcome.ret s) :
    runAction st fg =
      { status := if s ≠ 0 then s else 0, emissions := [], flagsGiven := fg,
        origin := some st.name, invoked := true } := by
  unfold runAction
  simp only [hact, hret]

/-- The action step on an action that makes a fatal log call. -/
theorem runAction_fatal (st : ScanState) (fg : Option (List String))
    (act : String → List String → Outcome) (msg : String)
    (hact : st.cmd.action = some act) (hfat : act st.name st.args = Outcome.fatal msg) :
    runAction st fg =
      { status := 1, emissions := [(Sink.logger, msg)], flagsGiven := fg,
        origin := some st.name, invoked := true } := by
  unfold runAction
  simp only [hact, hfat]

/-- Main on a resolved leaf without the HasFlags capability. -/
theorem Main_noflags (root : Command) (argv : List String) (st : ScanState)
    (hscan : scanArgv root argv = some st) (hfl : st.cmd.flags = none) :
    Main root argv = some (runAction st none) := by
  unfold Main
  rw [hscan, Option.some_bind, hfl]

/-- Main on a resolved leaf whose flag parse fails: the diagnostic goes
directly to os.Stderr and the returned status is 1. -/
theorem Main_parse_error (root : Command) (argv : List String) (st : ScanState)
    (p : List String → Except String Unit) (e : String)
    (hscan : scanArgv root argv = some st) (hfl : st.cmd.flags = some p)
    (hp : p st.flags = Except.error e) :
    Main root argv =
      some { status := 1, emissions := [(Sink.stderr, parseFailMsg e)],
             flagsGiven := some st.flags, origin := none, invoked := false } := by
  unfold Main
  simp only [hscan, Option.some_bind, hfl, hp]

/-- Main on a resolved leaf whose flag parse succeeds. -/
theorem Main_parse_ok (root : Command) (argv : List String) (st : ScanState)
    (p : List String → Except String Unit)
    (hscan : scanArgv root argv = some st) (hfl : st.cmd.flags = some p)
    (hp : p st.flags = Except.ok ()) :
    Main root argv = some (runAction st (some st.flags)) := by
  unfold Main
  simp only [hscan, Option.some_bind, hfl, hp]

/-- The flag bucket of a completed scan is the order-preserving
subsequence of flag-prefixed tokens of the whole argument vector. -/
theorem scanArgv_flags (root : Command) (argv : List String) (st : ScanState)
    (hscan : scanArgv root argv = some st) :
    st.flags = argv.filter (fun t => startsWithDash t) := by
  cases argv with
  | nil => exact Option.noConfusion hscan
  | cons a0 rest =>
    rw [scanArgv_eq_processAll] at hscan
    simpa using processAll_flags a0 (a0 :: rest) _ st hscan

/-! Concrete commands used as counterexamples and witnesses. -/

/-- A help-only command: no subcommands, no flags, no action. -/
def leafC : Command := Command.mk none none none

/-- A router whose only child is named `sub`. -/
def branchC : Command := Command.mk (some [("sub", leafC)]) none none

/-- A leaf declaring flags whose parse accepts everything. -/
def flagOkC : Command := Command.mk none (some fun _ => Except.ok ()) none

/-- A leaf declaring no flag, so that its parse rejects any collected
flag token, as the standard flag parser does on an undeclared flag. -/
def flagBadC : Command :=
  Command.mk none
    (some fun fs =>
      if fs = [] then Except.ok () else Except.error "flag provided but not defined: -bad")
    none

/-- A leaf whose action returns the given explicit status. -/
def retC (s : Int) : Command :=
  Command.mk none none (some fun _ _ => Outcome.ret s)

/-- A leaf whose action makes a fatal log call. -/
def fatalC : Command :=
  Command.mk none none (some fun _ _ => Outcome.fatal "FUBRRRR")

/-- A root with action-bearing children named `prog` and `x`: a tree in
which the invocation name of the process coincides with a child name. -/
def rootProgX : Command :=
  Command.mk (some [("prog", retC 0), ("x", retC 0)]) none none

/-! Claim theorems. -/

/-- Claim C1, counterexample: with a root command that has no subcommand
capability, Main's scan classifies the token at index 0 (the invocation
name) as positional — on the single-element vector the positional bucket
is exactly the invocation name.  This refutes the claim that the
index-0 token is never classified as positional, in precisely the cases
the claim singles out (no subcommand capability, single-element vector). -/
theorem C1_counterexample :
    (scanArgv leafC ["prog"]).map ScanState.args = some ["prog"] := by rfl

/-- Claim C1 (amended): when the root command does expose the subcommand
capability, the index-0 token is never classified as positional — if
the invocation name does not recur among the later tokens, the
positional bucket of a completed scan never contains it.  When the root
has no subcommand capability the index-0 token is appended to the
positional bucket (see the counterexample). -/
theorem C1_amended (root : Command) (m : List (String × Command)) (a0 : String)
    (rest : List String) (st : ScanState)
    (hroot : root.subcommands = some m)
    (hnr : a0 ∉ rest)
    (hscan : scanArgv root (a0 :: rest) = some st) :
    a0 ∉ st.args := by
  rw [scanArgv_eq_processAll] at hscan
  rw [show processAll a0 ⟨root, "", [], []⟩ (a0 :: rest) =
        (classify a0 ⟨root, "", [], []⟩ a0).bind
          fun st1 => processAll a0 st1 rest from rfl] at hscan
  rcases hc : classify a0 ⟨root, "", [], []⟩ a0 with _ | st1
  · rw [hc] at hscan; exact Option.noConfusion hscan
  · rw [hc, Option.some_bind] at hscan
    have ha0 : a0 ≠ "" := classify_some_ne _ _ _ _ hc
    rw [classify_of_ne _ _ _ ha0] at hc
    have hst1 : st1.args = [] := by
      have hidx := classifyCore_index0 a0 ⟨root, "", [], []⟩ m hroot
      injection hc with hc1
      rw [← hc1]
      simpa using hidx
    intro hmem
    rcases processAll_args_mem a0 rest st1 st hscan a0 hmem with h1 | h1
    · rw [hst1] at h1; cases h1
    · exact hnr h1

/-- Claim C1, witness for the amended statement: with the subcommand-
capable root `branchC` and vector `["prog", "sub"]` the completed scan
has an empty positional bucket, so it does not contain `"prog"`. -/
theorem C1_witness :
    "prog" ∉ (ScanState.mk leafC "sub" [] []).args :=
  C1_amended branchC [("sub", leafC)] "prog" ["sub"] (ScanState.mk leafC "sub" [] [])
    rfl (by decide) (by rfl)

/-- Claim C2: when the resolved leaf declares flags and parsing the
collected flag tokens fails, Main returns a nonzero status (namely 1),
emits a diagnostic, and never invokes the action. -/
theorem C2_parse_failure (root : Command) (argv : List String) (st : ScanState)
    (p : List String → Except String Unit) (e : String)
    (hscan : scanArgv root argv = some st)
    (hfl : st.cmd.flags = some p)
    (hp : p st.flags = Except.error e) :
    ∃ r : MainResult, Main root argv = some r ∧ r.status ≠ 0 ∧ r.invoked = false ∧
      r.emissions ≠ [] := by
  refine ⟨_, Main_parse_error root argv st p e hscan hfl hp, ?_, rfl, ?_⟩
  · exact one_ne_zero
  · simp

/-- Claim C2, witness: a leaf that declares no flag, invoked with an
undeclared flag token, yields a nonzero status, a diagnostic, and no
action invocation. -/
theorem C2_witness :
    ∃ r : MainResult, Main flagBadC ["prog", "-bad"] = some r ∧ r.status ≠ 0 ∧
      r.invoked = false ∧ r.emissions ≠ [] :=
  C2_parse_failure flagBadC ["prog", "-bad"]
    (ScanState.mk flagBadC "" ["-bad"] ["prog"])
    (fun fs =>
      if fs = [] then Except.ok () else Except.error "flag provided but not defined: -bad")
    "flag provided but not defined: -bad"
    (by rfl) rfl (by rfl)

/-- Claim C3, counterexample: with the tree `rootProgX` (children
`prog` and `x`) and the vector `["prog", "x"]`, the tokens after index 0
are the chain `["x"]` of valid subcommand names, so the claim demands
origin `"x"`; but the scan also processes the index-0 token `"prog"`,
which matches a child and is consumed as a routing step, so the origin
bound into the context is `"prog"`, not the space-join of the chain. -/
theorem C3_counterexample :
    (Main rootProgX ["prog", "x"]).map MainResult.origin = some (some "prog") ∧
      ("prog" : String) ≠ joinSpace ["x"] := by
  constructor
  · rfl
  · decide

/-- Claim C3 (amended): if the index-0 token is not itself consumed as a
routing step (it is a flag token, or matches no child of the root), the
tokens after index 0 start with a chain of names that resolves through
the subcommand tables to a command without subcommand capability, and
the remaining tokens are arbitrary non-empty strings, then the resolved
path — the value Main binds into the execution context as `origin` when
an action runs — is exactly the chain joined by single spaces. -/
theorem C3_amended (root : Command) (a0 : String) (chain rest : List String) (tgt : Command)
    (ha0 : a0 ≠ "")
    (ha0nr : ∀ m, root.subcommands = some m →
      startsWithDash a0 = true ∨ lookupCmd m a0 = none)
    (hchain : ∀ n ∈ chain, n ≠ "" ∧ startsWithDash n = false)
    (hres : resolveChain root chain = some tgt)
    (htgt : tgt.subcommands = none)
    (hrest : ∀ t ∈ rest, t ≠ "") :
    ∃ st : ScanState, scanArgv root (a0 :: (chain ++ rest)) = some st ∧
      st.name = joinSpace chain := by
  have hstep : ∃ fl ar, classifyCore a0 ⟨root, "", [], []⟩ a0 =
      ⟨root, "", fl, ar⟩ := by
    rcases classifyCore_cases a0 ⟨root, "", [], []⟩ a0 with
      ⟨hd, he⟩ | ⟨hd, hn, he⟩ | ⟨hd, m, c, hm, hl, he⟩ |
      ⟨hd, m, hm, hl, hne, he⟩ | ⟨hd, m, hm, hl, heq, he⟩
    · exact ⟨[a0], [], by rw [he]; rfl⟩
    · exact ⟨[], [a0], by rw [he]; rfl⟩
    · rcases ha0nr m hm with h1 | h1
      · rw [hd] at h1; exact Bool.noConfusion h1
      · rw [h1] at hl; exact Option.noConfusion hl
    · exact absurd rfl hne
    · exact ⟨[], [], by rw [he]⟩
  obtain ⟨fl, ar, hstep⟩ := hstep
  have hchainRun := processAll_chain a0 chain ⟨root, "", fl, ar⟩ tgt hchain hres
  have hname : joinAcc "" chain = joinSpace chain :=
    joinAcc_empty chain (fun n hn => (hchain n hn).1)
  rw [show joinAcc (ScanState.name ⟨root, "", fl, ar⟩) chain = joinAcc "" chain from rfl,
      hname] at hchainRun
  obtain ⟨st', hrun⟩ := processAll_total a0 rest ⟨tgt, joinSpace chain, fl, ar⟩ hrest
  obtain ⟨hcmd', hname'⟩ :=
    processAll_leaf a0 rest ⟨tgt, joinSpace chain, fl, ar⟩ st' htgt hrun
  refine ⟨st', ?_, hname'⟩
  rw [scanArgv_eq_processAll]
  rw [show processAll a0 ⟨root, "", [], []⟩ (a0 :: (chain ++ rest)) =
        (classify a0 ⟨root, "", [], []⟩ a0).bind
          fun st1 => processAll a0 st1 (chain ++ rest) from rfl]
  rw [classify_of_ne _ _ _ ha0, hstep, Option.some_bind,
      processAll_append a0 chain rest, hchainRun, Option.some_bind]
  exact hrun

/-- Claim C3, witness for the amended statement: root `branchC`, chain
`["sub"]`, one positional token; the resolved path is `"sub"`. -/
theorem C3_witness :
    ∃ st : ScanState, scanArgv branchC ["prog", "sub", "pos"] = some st ∧
      st.name = joinSpace ["sub"] :=
  C3_amended branchC "prog" ["sub"] ["pos"] leafC (by decide)
    (fun m hm => by
      have hm2 : some [("sub", leafC)] = some m := hm
      injection hm2 with hm3
      rw [← hm3]
      exact Or.inr rfl)
    (by decide) rfl rfl (by decide)

/-- Claim C4: the token list handed to the flag parser is exactly the
order-preserving subsequence of flag-prefixed tokens of the argument
vector, whatever their interleaving with subcommand and positional
tokens. -/
theorem C4_flags_order (root : Command) (argv : List String) (r : MainResult)
    (fs : List String)
    (hmain : Main root argv = some r)
    (hgiven : r.flagsGiven = some fs) :
    fs = argv.filter (fun t => startsWithDash t) := by
  rcases hs : scanArgv root argv with _ | st
  · unfold Main at hmain
    rw [hs, Option.none_bind] at hmain
    exact Option.noConfusion hmain
  · have hflags := scanArgv_flags root argv st hs
    rcases hfl : st.cmd.flags with _ | p
    · rw [Main_noflags root argv st hs hfl] at hmain
      injection hmain with h1
      rw [← h1, runAction_flagsGiven] at hgiven
      exact Option.noConfusion hgiven
    · rcases hp : p st.flags with e | u
      · rw [Main_parse_error root argv st p e hs hfl hp] at hmain
        injection hmain with h1
        rw [← h1] at hgiven
        injection hgiven with h2
        rw [← h2]
        exact hflags
      · cases u
        rw [Main_parse_ok root argv st p hs hfl hp] at hmain
        injection hmain with h1
        rw [← h1, runAction_flagsGiven] at hgiven
        injection hgiven with h2
        rw [← h2]
        exact hflags

/-- Claim C4, witness: with flags interleaved among positionals, the
parser receives exactly the flag-prefixed tokens in order. -/
theorem C4_witness :
    ["-a", "-c"] = List.filter (fun t => startsWithDash t) ["prog", "-a", "b", "-c"] :=
  C4_flags_order flagOkC ["prog", "-a", "b", "-c"]
    (MainResult.mk 0 [] (some ["-a", "-c"]) none false) ["-a", "-c"]
    (by rfl) rfl

/-- Claim C5: when flag binding succeeds (or the leaf declares no
flags) and the action returns an explicit status s in [0,255], Main
returns exactly s — 0 when the action returns 0, s verbatim otherwise. -/
theorem C5_status_passthrough (root : Command) (argv : List String) (st : ScanState)
    (act : String → List String → Outcome) (s : Int)
    (hscan : scanArgv root argv = some st)
    (hok : ∀ p, st.cmd.flags = some p → p st.flags = Except.ok ())
    (hact : st.cmd.action = some act)
    (hret : act st.name st.args = Outcome.ret s)
    (h0 : 0 ≤ s) (h255 : s ≤ 255) :
    (Main root argv).map MainResult.status = some s := by
  have hrun : ∀ fg, (runAction st fg).status = s := by
    intro fg
    rw [runAction_ret st fg act s hact hret]
    by_cases hz : s = 0
    · simp [hz]
    · simp [hz]
  rcases hfl : st.cmd.flags with _ | p
  · rw [Main_noflags root argv st hscan hfl]
    simp [hrun]
  · rw [Main_parse_ok root argv st p hscan hfl (hok p hfl)]
    simp [hrun]

/-- Claim C5, witness: an action returning 42 makes Main return 42. -/
theorem C5_witness :
    (Main (retC 42) ["prog"]).map MainResult.status = some 42 :=
  C5_status_passthrough (retC 42) ["prog"] (ScanState.mk (retC 42) "" [] ["prog"])
    (fun _ _ => Outcome.ret 42) 42 (by rfl)
    (fun p hp => Option.noConfusion hp) rfl rfl (by decide) (by decide)

/-- Claim C6: when the resolved command has no Action capability and
flag binding does not fail, Main returns status 0 and no action is
invoked. -/
theorem C6_router_status_zero (root : Command) (argv : List String) (st : ScanState)
    (hscan : scanArgv root argv = some st)
    (hact : st.cmd.action = none)
    (hok : ∀ p, st.cmd.flags = some p → p st.flags = Except.ok ()) :
    ∃ r : MainResult, Main root argv = some r ∧ r.status = 0 ∧ r.invoked = false := by
  rcases hfl : st.cmd.flags with _ | p
  · refine ⟨runAction st none, Main_noflags root argv st hscan hfl, ?_⟩
    rw [runAction_none st none hact]
    exact ⟨rfl, rfl⟩
  · refine ⟨runAction st (some st.flags),
      Main_parse_ok root argv st p hscan hfl (hok p hfl), ?_⟩
    rw [runAction_none st (some st.flags) hact]
    exact ⟨rfl, rfl⟩

/-- Claim C6, witness: a pure router invoked with only the invocation
name returns 0 and invokes nothing. -/
theorem C6_witness :
    ∃ r : MainResult, Main branchC ["prog"] = some r ∧ r.status = 0 ∧ r.invoked = false :=
  C6_router_status_zero branchC ["prog"] (ScanState.mk branchC "" [] [])
    (by rfl) rfl (fun p hp => Option.noConfusion hp)

/-- Claim C7, counterexample: on a flag-parse failure the dispatcher
emits its diagnostic with the hardcoded os.Stderr sink — refuting the
claim that no diagnostic is ever written directly to a hardcoded
process stream. -/
theorem C7_counterexample :
    (Main flagBadC ["prog", "-bad"]).map MainResult.emissions =
      some [(Sink.stderr, parseFailMsg "flag provided but not defined: -bad")] := by rfl

/-- Claim C7 (amended): the parse-failure diagnostic of the dispatcher
is written directly to the hardcoded os.Stderr stream and not through
the injected System logging capability — no logger-sink emission is
produced by the dispatcher on this path. -/
theorem C7_amended_stderr (root : Command) (argv : List String) (st : ScanState)
    (p : List String → Except String Unit) (e : String)
    (hscan : scanArgv root argv = some st)
    (hfl : st.cmd.flags = some p)
    (hp : p st.flags = Except.error e) :
    ∃ r : MainResult, Main root argv = some r ∧
      r.emissions = [(Sink.stderr, parseFailMsg e)] ∧
      ∀ msg, (Sink.logger, msg) ∉ r.emissions := by
  refine ⟨_, Main_parse_error root argv st p e hscan hfl hp, rfl, ?_⟩
  intro msg h
  simp at h

/-- Claim C7, witness for the amended statement at a concrete input. -/
theorem C7_witness :
    ∃ r : MainResult, Main flagBadC ["tool", "-z"] = some r ∧
      r.emissions = [(Sink.stderr, parseFailMsg "flag provided but not defined: -bad")] ∧
      ∀ msg, (Sink.logger, msg) ∉ r.emissions :=
  C7_amended_stderr flagBadC ["tool", "-z"]
    (ScanState.mk flagBadC "" ["-z"] ["tool"])
    (fun fs =>
      if fs = [] then Except.ok () else Except.error "flag provided but not defined: -bad")
    "flag provided but not defined: -bad"
    (by rfl) rfl (by rfl)

/-- Claim C8: an action that signals an unrecoverable condition through
a fatal log call resolves to the nonzero status 1 with the diagnostic on
the injected logger; this path never yields status 0. -/
theorem C8_fatal_nonzero (root : Command) (argv : List String) (st : ScanState)
    (act : String → List String → Outcome) (msg : String)
    (hscan : scanArgv root argv = some st)
    (hok : ∀ p, st.cmd.flags = some p → p st.flags = Except.ok ())
    (hact : st.cmd.action = some act)
    (hfat : act st.name st.args = Outcome.fatal msg) :
    ∃ r : MainResult, Main root argv = some r ∧ r.status = 1 ∧ r.status ≠ 0 ∧
      (Sink.logger, msg) ∈ r.emissions := by
  have hrun : ∀ fg, runAction st fg =
      { status := 1, emissions := [(Sink.logger, msg)], flagsGiven := fg,
        origin := some st.name, invoked := true } :=
    fun fg => runAction_fatal st fg act msg hact hfat
  rcases hfl : st.cmd.flags with _ | p
  · refine ⟨runAction st none, Main_noflags root argv st hscan hfl, ?_⟩
    rw [hrun]
    exact ⟨rfl, one_ne_zero, by simp⟩
  · refine ⟨runAction st (some st.flags),
      Main_parse_ok root argv st p hscan hfl (hok p hfl), ?_⟩
    rw [hrun]
    exact ⟨rfl, one_ne_zero, by simp⟩

/-- Claim C8, witness: the fatal-logging action yields status 1 with
its message on the logger sink. -/
theorem C8_witness :
    ∃ r : MainResult, Main fatalC ["prog"] = some r ∧ r.status = 1 ∧ r.status ≠ 0 ∧
      (Sink.logger, "FUBRRRR") ∈ r.emissions :=
  C8_fatal_nonzero fatalC ["prog"] (ScanState.mk fatalC "" [] ["prog"])
    (fun _ _ => Outcome.fatal "FUBRRRR") "FUBRRRR"
    (by rfl) (fun p hp => Option.noConfusion hp) rfl rfl

/-- Claim C9, counterexample: when the invocation name itself begins
with the flag-prefix character (as happens for a login shell, e.g.
os.Args[0] = "-p"), a later token equal to it at a node with a
subcommand table satisfies all three stated drop conditions — table
exposed, no child match, string-equal to the index-0 name — and yet is
not dropped: it is appended to the flag bucket.  The claimed "dropped
exactly when" equivalence is therefore false as stated. -/
theorem C9_counterexample :
    (classify "-p" (ScanState.mk branchC "" [] []) "-p").map ScanState.flags =
        some ["-p"] ∧
      (ScanState.mk branchC "" [] []).cmd.subcommands = some [("sub", leafC)] ∧
      lookupCmd [("sub", leafC)] "-p" = none :=
  ⟨rfl, rfl, rfl⟩

/-- Claim C9 (amended): a non-empty scanned token leaves the scan state
unchanged — is silently dropped, landing in none of the three buckets —
exactly when it does not begin with the flag-prefix character, the
current command exposes a subcommand table, it matches no child name,
and it is string-equal to the index-0 invocation name.  In every other
case the token is consumed as a routing step or appended to exactly one
of the flag and positional buckets. -/
theorem C9_amended_drop_iff (argv0 : String) (st : ScanState) (tok : String)
    (hne : tok ≠ "") :
    classify argv0 st tok = some st ↔
      (startsWithDash tok = false ∧
        ∃ m, st.cmd.subcommands = some m ∧ lookupCmd m tok = none ∧ tok = argv0) := by
  rw [classify_of_ne argv0 st tok hne]
  constructor
  · intro h
    injection h with h1
    rcases classifyCore_cases argv0 st tok with
      ⟨hd, he⟩ | ⟨hd, hn, he⟩ | ⟨hd, m, c, hm, hl, he⟩ |
      ⟨hd, m, hm, hl, hneq, he⟩ | ⟨hd, m, hm, hl, heq, he⟩
    · rw [he] at h1
      have hlen := congrArg (fun l : List String => l.length) (congrArg ScanState.flags h1)
      simp only [List.length_append, List.length_cons, List.length_nil] at hlen
      omega
    · rw [he] at h1
      have hlen := congrArg (fun l : List String => l.length) (congrArg ScanState.args h1)
      simp only [List.length_append, List.length_cons, List.length_nil] at hlen
      omega
    · rw [he] at h1
      have hnm := congrArg ScanState.name h1
      simp only at hnm
      by_cases hz : st.name = ""
      · rw [if_pos hz] at hnm
        exact absurd (hnm.trans hz) hne
      · rw [if_neg hz] at hnm
        exact absurd hnm (append_space_ne st.name tok)
    · rw [he] at h1
      have hlen := congrArg (fun l : List String => l.length) (congrArg ScanState.args h1)
      simp only [List.length_append, List.length_cons, List.length_nil] at hlen
      omega
    · exact ⟨hd, m, hm, hl, heq⟩
  · rintro ⟨hd, m, hm, hl, heq⟩
    subst heq
    simp [classifyCore, hd, hm, hl]

/-- Claim C9, witness for the amended statement: at a node with a
subcommand table, a non-flag token that matches no child and equals the
invocation name is dropped — the scan state is unchanged. -/
theorem C9_witness :
    classify "prog" (ScanState.mk branchC "" [] []) "prog" =
      some (ScanState.mk branchC "" [] []) :=
  (C9_amended_drop_iff "prog" (ScanState.mk branchC "" [] []) "prog" (by decide)).mpr
    ⟨by decide, [("sub", leafC)], rfl, rfl, rfl⟩

/-- Claim C10: the scan performs no out-of-range indexing exactly on
argument vectors that are non-empty and contain only non-empty tokens:
it completes on all of those, while the empty vector makes `tail[0]`
out of range and an empty token makes `head[0]` out of range. -/
theorem C10_scan_total_iff (root : Command) (argv : List String) :
    (∃ st : ScanState, scanArgv root argv = some st) ↔
      (argv ≠ [] ∧ ∀ t ∈ argv, t ≠ "") := by
  constructor
  · rintro ⟨st, hst⟩
    cases argv with
    | nil => exact Option.noConfusion hst
    | cons a0 rest =>
      rw [scanArgv_eq_processAll] at hst
      exact ⟨by simp, processAll_some_ne a0 (a0 :: rest) _ st hst⟩
  · rintro ⟨hne, hall⟩
    cases argv with
    | nil => exact absurd rfl hne
    | cons a0 rest =>
      simp only [scanArgv_eq_processAll]
      exact processAll_total a0 (a0 :: rest) _ hall

end GoCli
